import Mathlib

/- Batteries marks the `Rat` arithmetic operations `@[irreducible]`, which blocks
elaboration-time evaluation of the executable model on concrete inputs; restoring
the default reducibility only affects unfolding, not kernel soundness. -/
set_option allowUnsafeReducibility true
attribute [local semireducible] Rat.add Rat.sub Rat.mul Rat.inv Rat.div

/-!
Shallow embedding of the `bentley_ottmann` package
(`src/bentley_ottmann_api/bentley_ottmann/{geometry,data_structures,algorithm,__init__}.py`).

Numeric values (Python `int`/`float`) are modelled by `ℚ`; all concrete inputs used in
theorems below are small integers/simple fractions, on which Python double-precision
arithmetic is exact, so the `ℚ` model computes the same numbers the Python code does.

Python object identity, which the code relies on for events
(`PriorityQueue.remove_by_object_id` uses `id(...)`), is modelled by a numeric id
tag allocated from a counter.  Segments are identified by their index into the
state's segment store; attribute mutation (`segment.value = ...`) becomes an
update of that store.
-/

namespace BO

/-! ### geometry.py -/

/-- `Point` from geometry.py: an (x, y) pair; `get_coordinates` is projection. -/
abbrev Point := ℚ × ℚ

/-- `Segment` from geometry.py.  `first_point`/`second_point` are the endpoints
normalized by `get_first_and_second_point` (nondecreasing x); `value` is the
mutable ordering value maintained by `calculate_value`/`set_value`. -/
structure Segment where
  first_point : Point
  second_point : Point
  value : ℚ
deriving DecidableEq, Repr

/-- `Segment.calculate_value`: sets `value = y1 + ((y2-y1)/(x2-x1)) * (v - x1)`;
the `ZeroDivisionError` handler (hit exactly when `x2 - x1 == 0`) sets `value = 0`. -/
def calculate_value (s : Segment) (v : ℚ) : Segment :=
  let x1 := s.first_point.1
  let y1 := s.first_point.2
  let x2 := s.second_point.1
  let y2 := s.second_point.2
  if x2 - x1 = 0 then { s with value := 0 }
  else { s with value := y1 + ((y2 - y1) / (x2 - x1)) * (v - x1) }

/-- `Segment.get_first_and_second_point`: order the two constructor points by x. -/
def get_first_and_second_point (px py : Point) : Point × Point :=
  if px.1 ≤ py.1 then (px, py) else (py, px)

/-- `Segment.__init__`: normalize the endpoints, then initialize `value` via
`calculate_value(first_point.coordinate_x)`. -/
def mkSegment (px py : Point) : Segment :=
  let fs := get_first_and_second_point px py
  calculate_value { first_point := fs.1, second_point := fs.2, value := 0 } fs.1.1

/-- `Segment.__lt__`: note the reversal — `self.value > other.value`. -/
def segLtValue (a b : ℚ) : Bool := decide (a > b)

/-- `Segment.__eq__`: comparison is by `value` only. -/
def segEqValue (a b : ℚ) : Bool := decide (a = b)

/-- `EventType` from geometry.py. -/
inductive EventType where
  | pointLeft
  | pointRight
  | cross
deriving DecidableEq, Repr

/-- `Event` from geometry.py.  `eid` models Python object identity (`id(event)`);
`segments` holds segment ids (indices into the sweep state's segment store);
`value` is set to `point.coordinate_x` by `Event.__init__`. -/
structure Event where
  eid : Nat
  point : Point
  type : EventType
  segments : List Nat
  value : ℚ
deriving DecidableEq, Repr

/-- Constructor mirroring `Event.__init__` (the id tag is supplied by the caller). -/
def mkEvent (eid : Nat) (point : Point) (segments : List Nat) (type : EventType) : Event :=
  { eid := eid, point := point, type := type, segments := segments, value := point.1 }

def dummyEvent : Event :=
  { eid := 0, point := (0, 0), type := EventType.pointLeft, segments := [], value := 0 }

instance : Inhabited Event := ⟨dummyEvent⟩

/-- `Event.__lt__`: events compare by `value` (the x-coordinate) only. -/
def evLt (a b : Event) : Bool := decide (a.value < b.value)

/-! ### CPython `heapq` (imported by data_structures.py: `heappush`, `heappop`, `heapify`)

The heap is the Python list `PriorityQueue.heapq`, modelled as `List Event`.
`siftdownGo`/`siftupGo` carry a fuel argument for structural recursion; the fuel
passed by the wrappers (the list length) always exceeds the loop's trip count
(`_siftdown`'s position strictly decreases, `_siftup`'s doubles), so the
exhaustion branch is never taken on the wrappers' calls. -/

/-- Loop of CPython `heapq._siftdown(heap, startpos, pos)`: walk `pos` up toward
`startpos`, moving each parent greater than `newitem` down.  Returns the final
array and position; the wrapper stores `newitem` there. -/
def siftdownGo (startpos : Nat) (newitem : Event) :
    List Event → Nat → Nat → List Event × Nat
  | heap, pos, 0 => (heap, pos)
  | heap, pos, fuel + 1 =>
    if startpos < pos then
      let parentpos := (pos - 1) / 2
      let parent := heap.getD parentpos dummyEvent
      if evLt newitem parent then
        siftdownGo startpos newitem (heap.set pos parent) parentpos fuel
      else (heap, pos)
    else (heap, pos)

/-- CPython `heapq._siftdown`. -/
def siftdown (heap : List Event) (startpos pos : Nat) : List Event :=
  let newitem := heap.getD pos dummyEvent
  let hp := siftdownGo startpos newitem heap pos heap.length
  hp.1.set hp.2 newitem

/-- Loop of CPython `heapq._siftup(heap, pos)`: bubble the hole at `pos` down to a
leaf, always moving the smaller child up. -/
def siftupGo (endpos : Nat) : List Event → Nat → Nat → List Event × Nat
  | heap, pos, 0 => (heap, pos)
  | heap, pos, fuel + 1 =>
    let childpos := 2 * pos + 1
    if childpos < endpos then
      let rightpos := childpos + 1
      let childpos :=
        if rightpos < endpos ∧
            ¬ evLt (heap.getD childpos dummyEvent) (heap.getD rightpos dummyEvent) then
          rightpos
        else childpos
      siftupGo endpos (heap.set pos (heap.getD childpos dummyEvent)) childpos fuel
    else (heap, pos)

/-- CPython `heapq._siftup`. -/
def siftup (heap : List Event) (pos : Nat) : List Event :=
  let endpos := heap.length
  let startpos := pos
  let newitem := heap.getD pos dummyEvent
  let hp := siftupGo endpos heap pos heap.length
  siftdown (hp.1.set hp.2 newitem) startpos hp.2

/-- CPython `heapq.heappush`. -/
def heappush (heap : List Event) (item : Event) : List Event :=
  siftdown (heap ++ [item]) 0 heap.length

/-- CPython `heapq.heappop`: raises `IndexError` on the empty list (modelled as
`none`; `PriorityQueue.dequeue` re-raises, and the sweep loop never pops empty). -/
def heappop (heap : List Event) : Option (Event × List Event) :=
  match heap.getLast? with
  | none => none
  | some lastelt =>
    let rest := heap.dropLast
    match rest with
    | [] => some (lastelt, [])
    | x :: _ => some (x, siftup (rest.set 0 lastelt) 0)

/-- CPython `heapq.heapify`: `for i in reversed(range(n//2)): _siftup(x, i)`. -/
def heapify (heap : List Event) : List Event :=
  (List.range (heap.length / 2)).reverse.foldl (fun a i => siftup a i) heap

/-! ### data_structures.py — `AVLTree`

The imperative parent-pointer tree (`Node` with `parent`/`left_child`/`right_child`
and a stored `height`) is embedded as an inductive tree whose constructors store
the recorded height; the recursion path plays the role of the parent chain.
Every operation is parametrized by the Boolean comparison `lt` because the tree
is used with `Segment.__lt__`, whose result depends on the segments' *current*
(mutable) values — `gt a b` in the Python source resolves to the reflected
`b.__lt__(a)` since `Segment` defines no `__gt__`.

Height bookkeeping mirrors `recompute_heights` (`height = 1 + max(child heights)`
with `-1` for an absent child, i.e. `0` for a leaf) and rotations mirror the
four `AVLRebalanceMixin` cases: the nodes whose pointers change get their
heights recomputed bottom-up, all others keep their stored heights. -/

inductive BTree (α : Type) where
  | nil : BTree α
  | node (left : BTree α) (key : α) (right : BTree α) (height : Nat) : BTree α
deriving DecidableEq, Repr

namespace BTree

variable {α : Type}

/-- Recorded height of a child slot: `-1` for an absent child (the value
`get_max_children_height`/`balance` substitute), the stored height otherwise. -/
def childH : BTree α → Int
  | nil => -1
  | node _ _ _ h => (h : Int)

/-- Rebuild a node, recomputing its recorded height the way `recompute_heights`
does (`get_max_children_height() + 1`, which is `0` for a leaf). -/
def mkNode (l : BTree α) (k : α) (r : BTree α) : BTree α :=
  node l k r (1 + max (childH l) (childH r)).toNat

/-- `Node.balance`: left child height minus right child height. -/
def balanceOf : BTree α → Int
  | nil => 0
  | node l _ r _ => childH l - childH r

/-- `rebalance_case_rrc`: single left rotation. -/
def rebalance_case_rrc : BTree α → BTree α
  | node a k (node b rk c _) _ => mkNode (mkNode a k b) rk c
  | t => t

/-- `rebalance_case_rlc`: right-left double rotation. -/
def rebalance_case_rlc : BTree α → BTree α
  | node a k (node (node b lk c _) rk d _) _ => mkNode (mkNode a k b) lk (mkNode c rk d)
  | t => t

/-- `rabalance_case_llc` (sic): single right rotation. -/
def rabalance_case_llc : BTree α → BTree α
  | node (node a lk b _) k c _ => mkNode a lk (mkNode b k c)
  | t => t

/-- `rabalance_case_lrc` (sic): left-right double rotation. -/
def rabalance_case_lrc : BTree α → BTree α
  | node (node a lk (node b rk c _) _) k d _ => mkNode (mkNode a lk b) rk (mkNode c k d)
  | t => t

/-- `AVLRebalanceMixin.rebalance`: dispatch on the balance factor of the node and
of its heavier child.  The fall-through patterns of the four cases are
unreachable when the tree shape invariant holds (the Python code would raise
`AttributeError` there). -/
def rebalance (t : BTree α) : BTree α :=
  if balanceOf t = -2 then
    match t with
    | node _ _ r _ => if balanceOf r ≤ 0 then rebalance_case_rrc t else rebalance_case_rlc t
    | nil => nil
  else
    match t with
    | node l _ _ _ => if 0 ≤ balanceOf l then rabalance_case_llc t else rabalance_case_lrc t
    | nil => nil

/-- `rebalance_all_nodes` guard applied at one node on the way back up:
`if node.balance() not in [-1, 0, 1]: rebalance(node)`. -/
def rebalanceNode (t : BTree α) : BTree α :=
  if balanceOf t ≤ -2 ∨ 2 ≤ balanceOf t then rebalance t else t

/-- `AVLTree.find_in_subtree` (and `find` from the root): three-way descent using
`key < node.key` then `key > node.key`; returns the stored key of the matching
node. -/
def find? (lt : α → α → Bool) : BTree α → α → Option α
  | nil, _ => none
  | node l k r _, key =>
    if lt key k then find? lt l key
    else if lt k key then find? lt r key
    else some k

/-- `AVLTree.insert_child` together with the height walk in its local
`get_one_node` and the single `rebalance` call: recurse to the empty slot
dictated by `lt`, attach a fresh leaf, then recompute heights along the return
path and rotate at a node found out of balance.  (When the parent already had a
child, no recorded height changes and no rotation fires, which is exactly the
`parent_node.height == 0` guard in `get_one_node`.) -/
def insert_child (lt : α → α → Bool) : BTree α → α → BTree α
  | nil, key => node nil key nil 0
  | node l k r _, key =>
    if lt key k then rebalanceNode (mkNode (insert_child lt l key) k r)
    else rebalanceNode (mkNode l k (insert_child lt r key))

/-- `AVLTree.insert`: empty tree gets a root leaf; otherwise the duplicate guard
(`if self.find(key) is None`) suppresses the insertion when some present key
compares equal (neither `<` nor `>`). -/
def insert (lt : α → α → Bool) (t : BTree α) (key : α) : BTree α :=
  match t with
  | nil => node nil key nil 0
  | _ => if (find? lt t key).isSome then t else insert_child lt t key

/-- `AVLTree.find_smallest`: leftmost key of a nonempty subtree. -/
def find_smallest : BTree α → Option α
  | nil => none
  | node nil k _ _ => some k
  | node (node ll lk lr lh) _ _ _ => find_smallest (node ll lk lr lh)

/-- Removal of the leftmost node of a subtree (the position
`swap_with_successor_and_remove` deletes after `swap_nodes`), with heights
recomputed and `rebalance_all_nodes` applied along the return path. -/
def removeSmallest : BTree α → BTree α
  | nil => nil
  | node nil _ r _ => r
  | node (node ll lk lr lh) k r _ =>
    rebalanceNode (mkNode (removeSmallest (node ll lk lr lh)) k r)

/-- `AVLTree.remove_key` = `remove_node(find(key))`: descend exactly as `find`
does; a missing key is a no-op (`remove_node(None)`).  The three deletion cases
of `remove_node` appear at the matching node: `remove_leaf`, `remove_branch`,
and `swap_with_successor_and_remove` (replace the key by the in-order successor
— the smallest of the right subtree — and delete that node's old position).
Heights are recomputed and the `rebalance_all_nodes` walk applied along the
path back to the root. -/
def remove_key (lt : α → α → Bool) : BTree α → α → BTree α
  | nil, _ => nil
  | node l k r h, key =>
    if lt key k then rebalanceNode (mkNode (remove_key lt l key) k r)
    else if lt k key then rebalanceNode (mkNode l k (remove_key lt r key))
    else
      match l, r with
      | nil, _ => r
      | _, nil => l
      | node _ _ _ _, node rl rk rr rh =>
        match find_smallest (node rl rk rr rh) with
        | none => node l k r h
        | some succ => rebalanceNode (mkNode l succ (removeSmallest (node rl rk rr rh)))

/-- `AVLTree.inorder` (key output form). -/
def inorder : BTree α → List α
  | nil => []
  | node l k r _ => inorder l ++ k :: inorder r

/-- Well-formedness of the recorded data: every node's stored height is
1 + max(child heights) and every balance factor lies in {-1, 0, 1}. -/
def WF : BTree α → Prop
  | nil => True
  | node l _ r h =>
      WF l ∧ WF r ∧ (h : Int) = 1 + max (childH l) (childH r) ∧
        childH l - childH r ≤ 1 ∧ childH r - childH l ≤ 1

end BTree

/-! ### CPython `bisect` (used by `AVLTree.lower` / `AVLTree.higher`)

`bisect_left`/`bisect_right` perform binary search on the materialized in-order
list using `__lt__` only; the loops are modelled with fuel (the list length
bounds the trip count since `hi - lo` halves each iteration). -/

def bisectLeftGo {α : Type} (lt : α → α → Bool) (a : List α) (key : α) (d : α) :
    Nat → Nat → Nat → Nat
  | lo, hi, 0 => lo
  | lo, hi, fuel + 1 =>
    if lo < hi then
      let mid := (lo + hi) / 2
      if lt (a.getD mid d) key then bisectLeftGo lt a key d (mid + 1) hi fuel
      else bisectLeftGo lt a key d lo mid fuel
    else lo

def bisect_left {α : Type} [Inhabited α] (lt : α → α → Bool) (a : List α) (key : α) : Nat :=
  bisectLeftGo lt a key default 0 a.length (a.length + 1)

def bisectRightGo {α : Type} (lt : α → α → Bool) (a : List α) (key : α) (d : α) :
    Nat → Nat → Nat → Nat
  | lo, hi, 0 => lo
  | lo, hi, fuel + 1 =>
    if lo < hi then
      let mid := (lo + hi) / 2
      if lt key (a.getD mid d) then bisectRightGo lt a key d lo mid fuel
      else bisectRightGo lt a key d (mid + 1) hi fuel
    else lo

def bisect_right {α : Type} [Inhabited α] (lt : α → α → Bool) (a : List α) (key : α) : Nat :=
  bisectRightGo lt a key default 0 a.length (a.length + 1)

/-- `AVLTree.lower`: greatest element strictly below `key` in the in-order list
(w.r.t. the reversed segment order), found via `bisect_left`. -/
def treeLower {α : Type} [Inhabited α] (lt : α → α → Bool) (t : BTree α) (key : α) :
    Option α :=
  match t with
  | BTree.nil => none
  | _ =>
    let elements := t.inorder
    let index := bisect_left lt elements key
    if index ≠ 0 then some (elements.getD (index - 1) default) else none

/-- `AVLTree.higher`: least element strictly above `key` in the in-order list,
found via `bisect_right`. -/
def treeHigher {α : Type} [Inhabited α] (lt : α → α → Bool) (t : BTree α) (key : α) :
    Option α :=
  match t with
  | BTree.nil => none
  | _ =>
    let elements := t.inorder
    let index := bisect_right lt elements key
    if elements.length ≤ index then none else some (elements.getD index default)

/-! ### algorithm.py — `BentleyOttmann` -/

def dummySegment : Segment := { first_point := (0, 0), second_point := (0, 0), value := 0 }

instance : Inhabited Segment := ⟨dummySegment⟩

/-- Sweep state: the segment store (`Segment` objects addressed by index, which
models Python object identity), `self.priority_queue.heapq`, the id counter for
freshly allocated events, `self.tree_set` (storing segment ids), and
`self.output`.  The output set is kept as a duplicate-free list; only its
underlying set matters, since the algorithm returns `sorted(self.output)`. -/
structure Sweep where
  segs : List Segment
  pq : List Event
  nextId : Nat
  tree : BTree Nat
  output : List Point
deriving Repr

/-- Current value of the segment with id `i`. -/
def segVal (segs : List Segment) (i : Nat) : ℚ := (segs.getD i dummySegment).value

/-- `Segment.__lt__` lifted to segment ids against the current store. -/
def segLt (segs : List Segment) (i j : Nat) : Bool := segLtValue (segVal segs i) (segVal segs j)

/-- `set.add` on the output: Python set insertion of a coordinate tuple. -/
def addOutput (p : Point) (out : List Point) : List Point :=
  if p ∈ out then out else out ++ [p]

/-- `BentleyOttmann.get_priority_queue_with_data` together with `__init__`:
push a `POINT_LEFT` event at `first_point` and a `POINT_RIGHT` event at
`second_point` for each input segment, in input order. -/
def initState (segments : List Segment) : Sweep :=
  let init : Sweep :=
    { segs := segments, pq := [], nextId := 0, tree := BTree.nil, output := [] }
  (List.range segments.length).foldl
    (fun st idx =>
      let s := st.segs.getD idx dummySegment
      let pq1 := heappush st.pq (mkEvent st.nextId s.first_point [idx] EventType.pointLeft)
      let pq2 := heappush pq1 (mkEvent (st.nextId + 1) s.second_point [idx] EventType.pointRight)
      { st with pq := pq2, nextId := st.nextId + 2 })
    init

/-- `BentleyOttmann.recalculate`: recompute the stored value of every segment in
the tree (in-order snapshot) at sweep position `value`. -/
def recalculate (st : Sweep) (value : ℚ) : Sweep :=
  { st with
    segs := st.tree.inorder.foldl
      (fun segs i => segs.set i (calculate_value (segs.getD i dummySegment) value)) st.segs }

/-- `BentleyOttmann.intersection`: the parametric line-line test.  On success
(`r` nonzero, `t`/`u` in `[0,1]`, crossing strictly right of the sweep) a new
`INTERSECTION` event is enqueued and `True` is returned. -/
def intersection (st : Sweep) (first_segment second_segment : Nat) (value : ℚ) :
    Bool × Sweep :=
  let s1 := st.segs.getD first_segment dummySegment
  let s2 := st.segs.getD second_segment dummySegment
  let x1 := s1.first_point.1
  let y1 := s1.first_point.2
  let x2 := s1.second_point.1
  let y2 := s1.second_point.2
  let x3 := s2.first_point.1
  let y3 := s2.first_point.2
  let x4 := s2.second_point.1
  let y4 := s2.second_point.2
  let r := (x2 - x1) * (y4 - y3) - (y2 - y1) * (x4 - x3)
  if r = 0 then (false, st)
  else
    let t := ((x3 - x1) * (y4 - y3) - (y3 - y1) * (x4 - x3)) / r
    let u := ((x3 - x1) * (y2 - y1) - (y3 - y1) * (x2 - x1)) / r
    if 0 ≤ t ∧ t ≤ 1 ∧ 0 ≤ u ∧ u ≤ 1 then
      let xc := x1 + t * (x2 - x1)
      let yc := y1 + t * (y2 - y1)
      if xc > value then
        (true,
          { st with
            pq := heappush st.pq
              (mkEvent st.nextId (xc, yc) [first_segment, second_segment] EventType.cross)
            nextId := st.nextId + 1 })
      else (false, st)
    else (false, st)

/-- `PriorityQueue.remove_by_object_id`: scan for the first element with the same
object id, delete it and re-heapify; the trailing unconditional `heapify` of the
method runs in either case. -/
def remove_by_object_id (heap : List Event) (data : Event) : List Event :=
  match heap.findIdx? (fun e => e.eid == data.eid) with
  | some idx => heapify (heapify (heap.eraseIdx idx))
  | none => heapify heap

/-- One matching check of `BentleyOttmann.remove_duplicate`: the event is an
`INTERSECTION` event whose two stored segments compare equal (`Segment.__eq__`,
i.e. *value* equality) to the given pair in either order. -/
def dupMatches (segs : List Segment) (first_segment second_segment : Nat) (e : Event) : Prop :=
  e.type = EventType.cross ∧
    ((segEqValue (segVal segs (e.segments.getD 0 0)) (segVal segs first_segment) ∧
      segEqValue (segVal segs (e.segments.getD 1 0)) (segVal segs second_segment)) ∨
     (segEqValue (segVal segs (e.segments.getD 0 0)) (segVal segs second_segment) ∧
      segEqValue (segVal segs (e.segments.getD 1 0)) (segVal segs first_segment)))

instance (segs : List Segment) (i j : Nat) (e : Event) :
    Decidable (dupMatches segs i j e) := by
  unfold dupMatches; infer_instance

/-- Loop of `BentleyOttmann.remove_duplicate`: `for event in self.priority_queue`
iterates the heap list by index while `remove_by_object_id` mutates it in place,
so the iterator resumes at the successor index of the *modified* list. -/
def removeDupGo (segs : List Segment) (first_segment second_segment : Nat) :
    List Event → Nat → Nat → List Event
  | pq, _, 0 => pq
  | pq, i, fuel + 1 =>
    if i < pq.length then
      let e := pq.getD i dummyEvent
      if dupMatches segs first_segment second_segment e then
        removeDupGo segs first_segment second_segment (remove_by_object_id pq e) (i + 1) fuel
      else removeDupGo segs first_segment second_segment pq (i + 1) fuel
    else pq

/-- `BentleyOttmann.remove_duplicate`. -/
def remove_duplicate (st : Sweep) (first_segment second_segment : Nat) : Sweep :=
  { st with pq := removeDupGo st.segs first_segment second_segment st.pq 0 st.pq.length }

/-- Body of the `for segment in event.segments` loop of
`BentleyOttmann.find_intersections_left_point`. -/
def leftPointBody (v : ℚ) (st : Sweep) (s : Nat) : Sweep :=
  let st := recalculate st v
  let st := { st with tree := BTree.insert (segLt st.segs) st.tree s }
  let st :=
    match treeLower (segLt st.segs) st.tree s with
    | some lower => (intersection st lower s v).2
    | none => st
  let st :=
    match treeHigher (segLt st.segs) st.tree s with
    | some higher => (intersection st higher s v).2
    | none => st
  let lower := treeLower (segLt st.segs) st.tree s
  let higher := treeHigher (segLt st.segs) st.tree s
  match lower, higher with
  | some lo, some hi => remove_duplicate st lo hi
  | _, _ => st

/-- `BentleyOttmann.find_intersections_left_point`. -/
def find_intersections_left_point (st : Sweep) (e : Event) : Sweep :=
  e.segments.foldl (leftPointBody e.value) st

/-- Body of the `for segment in event.segments` loop of
`BentleyOttmann.find_intersections_right_point`. -/
def rightPointBody (v : ℚ) (st : Sweep) (s : Nat) : Sweep :=
  let lower := treeLower (segLt st.segs) st.tree s
  let higher := treeHigher (segLt st.segs) st.tree s
  let st :=
    match lower, higher with
    | some lo, some hi => (intersection st lo hi v).2
    | _, _ => st
  { st with tree := BTree.remove_key (segLt st.segs) st.tree s }

/-- `BentleyOttmann.find_intersections_right_point`. -/
def find_intersections_right_point (st : Sweep) (e : Event) : Sweep :=
  e.segments.foldl (rightPointBody e.value) st

/-- `BentleyOttmann.swap`: remove both segments (under their current values),
exchange the two stored values, reinsert both (under the swapped values). -/
def swap (st : Sweep) (first_segment second_segment : Nat) : Sweep :=
  let t1 := BTree.remove_key (segLt st.segs) st.tree first_segment
  let t2 := BTree.remove_key (segLt st.segs) t1 second_segment
  let v1 := segVal st.segs first_segment
  let v2 := segVal st.segs second_segment
  let segs := st.segs.set first_segment
    { st.segs.getD first_segment dummySegment with value := v2 }
  let segs := segs.set second_segment
    { segs.getD second_segment dummySegment with value := v1 }
  let t3 := BTree.insert (segLt segs) t2 first_segment
  let t4 := BTree.insert (segLt segs) t3 second_segment
  { st with segs := segs, tree := t4 }

/-- `BentleyOttmann.find_intersections_point_intersections`. -/
def find_intersections_point_intersections (st : Sweep) (e : Event) : Sweep :=
  let first_segment := e.segments.getD 0 0
  let second_segment := e.segments.getD 1 0
  let st := swap st first_segment second_segment
  let st :=
    if segVal st.segs first_segment < segVal st.segs second_segment then
      let st :=
        match treeHigher (segLt st.segs) st.tree first_segment with
        | some higher_first =>
          let st := (intersection st higher_first first_segment e.value).2
          remove_duplicate st higher_first second_segment
        | none => st
      match treeLower (segLt st.segs) st.tree second_segment with
      | some lower_second =>
        let st := (intersection st lower_second second_segment e.value).2
        remove_duplicate st lower_second first_segment
      | none => st
    else
      let st :=
        match treeHigher (segLt st.segs) st.tree second_segment with
        | some higher_second =>
          let st := (intersection st higher_second second_segment e.value).2
          remove_duplicate st higher_second first_segment
        | none => st
      match treeLower (segLt st.segs) st.tree first_segment with
      | some lower_first =>
        let st := (intersection st lower_first first_segment e.value).2
        remove_duplicate st lower_first second_segment
      | none => st
  { st with output := addOutput e.point st.output }

/-- Dispatch table of `BentleyOttmann.find_intersections`. -/
def processEvent (st : Sweep) (e : Event) : Sweep :=
  match e.type with
  | EventType.pointLeft => find_intersections_left_point st e
  | EventType.pointRight => find_intersections_right_point st e
  | EventType.cross => find_intersections_point_intersections st e

/-- The `while self.priority_queue:` loop, with fuel; `none` when the fuel is
exhausted before the queue empties. -/
def runLoop : Nat → Sweep → Option Sweep
  | 0, st => match st.pq with | [] => some st | _ => none
  | fuel + 1, st =>
    match heappop st.pq with
    | none => some st
    | some ep => runLoop fuel (processEvent { st with pq := ep.2 } ep.1)

/-- Lexicographic tuple order of Python `sorted` on coordinate pairs
(non-strict form used for sorting). -/
def pointLe (p q : Point) : Prop := p.1 < q.1 ∨ (p.1 = q.1 ∧ p.2 ≤ q.2)

/-- Strict lexicographic order on points. -/
def pointLt (p q : Point) : Prop := p.1 < q.1 ∨ (p.1 = q.1 ∧ p.2 < q.2)

instance : DecidableRel pointLe := by
  intro p q; unfold pointLe; infer_instance

instance : DecidableRel pointLt := by
  intro p q; unfold pointLt; infer_instance

/-- `sorted(self.output)`: on a duplicate-free list of tuples the sorted result
is the unique `pointLe`-sorted permutation, which `List.insertionSort` computes. -/
def sortedOutput (out : List Point) : List Point := List.insertionSort pointLe out

/-- `bentley_ottmann/__init__.py::find_intersections` (segment construction from
coordinate pairs) composed with `BentleyOttmann.find_intersections`. -/
def find_intersections (fuel : Nat) (lines : List (Point × Point)) : Option (List Point) :=
  let segments := lines.map (fun pxy => mkSegment pxy.1 pxy.2)
  (runLoop fuel (initState segments)).map (fun st => sortedOutput st.output)

/-- Process exactly `n` events of the sweep loop (for stating facts about
intermediate sweep states); `none` if fewer than `n` events were pending. -/
def runSteps : Nat → Sweep → Option Sweep
  | 0, st => some st
  | n + 1, st =>
    match heappop st.pq with
    | none => none
    | some ep => runSteps n (processEvent { st with pq := ep.2 } ep.1)

/-! ### Concrete inputs used by individual claims -/

/-- Segment 0 is horizontal from (0,0) to (2,0); segment 1 runs from (1,0) to
(3,1), so its left endpoint lies on segment 0 and both segments have ordering
value 0 when the sweep reaches x = 1. -/
def touchLines : List (Point × Point) :=
  [(((0:ℚ), (0:ℚ)), ((2:ℚ), (0:ℚ))), (((1:ℚ), (0:ℚ)), ((3:ℚ), (1:ℚ)))]

def touchSegments : List Segment := touchLines.map (fun pxy => mkSegment pxy.1 pxy.2)

/-- Four segments whose ordering values are all 0 right after construction;
segments 2 and 3 are distinct objects from segments 0 and 1. -/
def fourFlatSegments : List Segment :=
  [mkSegment ((0:ℚ), (0:ℚ)) ((2:ℚ), (0:ℚ)),
   mkSegment ((1:ℚ), (0:ℚ)) ((3:ℚ), (1:ℚ)),
   mkSegment ((0:ℚ), (0:ℚ)) ((4:ℚ), (0:ℚ)),
   mkSegment ((2:ℚ), (0:ℚ)) ((6:ℚ), (4:ℚ))]

/-- A pending `INTERSECTION` event whose two segments are (by identity) segments
2 and 3 of `fourFlatSegments`. -/
def strayCrossEvent : Event := mkEvent 7 ((5:ℚ), (5:ℚ)) [2, 3] EventType.cross

/-- A sweep state whose queue holds exactly `strayCrossEvent`. -/
def strayCrossState : Sweep :=
  { segs := fourFlatSegments, pq := [strayCrossEvent], nextId := 8,
    tree := BTree.nil, output := [] }

/-- Three segments: 0 and 2 cross at (4/3, 4/3); 0 and 1 share the endpoint
(0,0) and have equal ordering values there; 1 and 2 do not meet. -/
def permLinesA : List (Point × Point) :=
  [(((0:ℚ), (0:ℚ)), ((2:ℚ), (2:ℚ))),
   (((0:ℚ), (0:ℚ)), ((2:ℚ), (0:ℚ))),
   (((0:ℚ), (2:ℚ)), ((2:ℚ), (1:ℚ)))]

/-- The same multiset of segments as `permLinesA` with the first two swapped. -/
def permLinesB : List (Point × Point) :=
  [(((0:ℚ), (0:ℚ)), ((2:ℚ), (0:ℚ))),
   (((0:ℚ), (0:ℚ)), ((2:ℚ), (2:ℚ))),
   (((0:ℚ), (2:ℚ)), ((2:ℚ), (1:ℚ)))]

/-! ### Named quantities of the intersection test (algorithm.py lines 77-86) -/

/-- The determinant `r` of `BentleyOttmann.intersection`. -/
def detOf (s1 s2 : Segment) : ℚ :=
  (s1.second_point.1 - s1.first_point.1) * (s2.second_point.2 - s2.first_point.2) -
    (s1.second_point.2 - s1.first_point.2) * (s2.second_point.1 - s2.first_point.1)

/-- The line-intersection parameter `t` of `BentleyOttmann.intersection`. -/
def tOf (s1 s2 : Segment) : ℚ :=
  ((s2.first_point.1 - s1.first_point.1) * (s2.second_point.2 - s2.first_point.2) -
      (s2.first_point.2 - s1.first_point.2) * (s2.second_point.1 - s2.first_point.1)) /
    detOf s1 s2

/-- The line-intersection parameter `u` of `BentleyOttmann.intersection`. -/
def uOf (s1 s2 : Segment) : ℚ :=
  ((s2.first_point.1 - s1.first_point.1) * (s1.second_point.2 - s1.first_point.2) -
      (s2.first_point.2 - s1.first_point.2) * (s1.second_point.1 - s1.first_point.1)) /
    detOf s1 s2

/-- The crossing x-coordinate `x_c` of `BentleyOttmann.intersection`. -/
def xcOf (s1 s2 : Segment) : ℚ :=
  s1.first_point.1 + tOf s1 s2 * (s1.second_point.1 - s1.first_point.1)

/-- The crossing y-coordinate `y_c` of `BentleyOttmann.intersection`. -/
def ycOf (s1 s2 : Segment) : ℚ :=
  s1.first_point.2 + tOf s1 s2 * (s1.second_point.2 - s1.first_point.2)

/-- The success condition of the intersection test, as the claim states it:
nonzero determinant, both parameters within [0,1], crossing strictly beyond the
current sweep position. -/
def crossCond (st : Sweep) (i j : Nat) (v : ℚ) : Prop :=
  let s1 := st.segs.getD i dummySegment
  let s2 := st.segs.getD j dummySegment
  detOf s1 s2 ≠ 0 ∧ 0 ≤ tOf s1 s2 ∧ tOf s1 s2 ≤ 1 ∧ 0 ≤ uOf s1 s2 ∧ uOf s1 s2 ≤ 1 ∧
    v < xcOf s1 s2

instance (st : Sweep) (i j : Nat) (v : ℚ) : Decidable (crossCond st i j v) := by
  unfold crossCond; infer_instance

/-- The state produced by a successful intersection test: the new `INTERSECTION`
event between the given pair is pushed and the id counter advances. -/
def crossEnqueued (st : Sweep) (i j : Nat) : Sweep :=
  let s1 := st.segs.getD i dummySegment
  let s2 := st.segs.getD j dummySegment
  { st with
    pq := heappush st.pq (mkEvent st.nextId (xcOf s1 s2, ycOf s1 s2) [i, j] EventType.cross)
    nextId := st.nextId + 1 }

/-! ### Mutation sequences on the status-structure tree (for the AVL invariant)

Each operation carries its own comparison function, reflecting that the tree is
used with `Segment.__lt__` over *mutable* ordering values: between two
mutations the comparator may have changed arbitrarily. -/

inductive AVLOp (α : Type) where
  | insOp (lt : α → α → Bool) (key : α) : AVLOp α
  | delOp (lt : α → α → Bool) (key : α) : AVLOp α

def applyOp {α : Type} (t : BTree α) : AVLOp α → BTree α
  | AVLOp.insOp lt k => BTree.insert lt t k
  | AVLOp.delOp lt k => BTree.remove_key lt t k

def applyOps {α : Type} (ops : List (AVLOp α)) : BTree α := ops.foldl applyOp BTree.nil

/-! ## Theorems for the claims -/

/-- C1: for the input consisting of exactly the two segments [(0,0),(2,2)] and
[(0,2),(2,0)], the top-level `find_intersections` returns exactly the
one-element list [(1.0, 1.0)]. -/
theorem c1_two_crossing_segments_output :
    find_intersections 50
        [(((0:ℚ), (0:ℚ)), ((2:ℚ), (2:ℚ))), (((0:ℚ), (2:ℚ)), ((2:ℚ), (0:ℚ)))] =
      some [((1:ℚ), (1:ℚ))] := by decide

/-- C2 (code bug): on the input `touchLines`, the second processed event is the
left-endpoint event of segment 1 at sweep position x = 1; segment 1's x-interval
[1,3] contains 1 and its right-endpoint event is still pending, yet after the
orchestrator finishes that event the status structure contains only segment 0 —
the value-equality duplicate guard of `AVLTree.insert` silently dropped the
genuinely distinct active segment 1, violating the claimed global invariant. -/
theorem c2_code_bug_missing_active_segment :
    (runSteps 1 (initState touchSegments)).bind
        (fun st => (heappop st.pq).map (fun ep => (ep.1.type, ep.1.segments, ep.1.value))) =
      some (EventType.pointLeft, [1], 1) ∧
    (touchSegments.getD 1 dummySegment).first_point.1 ≤ 1 ∧
    (1:ℚ) ≤ (touchSegments.getD 1 dummySegment).second_point.1 ∧
    (runSteps 2 (initState touchSegments)).map (fun st => st.tree.inorder) = some [0] ∧
    (runSteps 2 (initState touchSegments)).map
        (fun st => st.pq.countP
          (fun e => decide (e.type = EventType.pointRight ∧ e.segments = [1]))) =
      some 1 := by decide

/-- C3 (counterexample): segments 0 and 1 of `touchSegments` are distinct
objects, yet they compare equal (`Segment.__eq__` is value-only — there is no
identity tie-break and no strict order between them), and inserting the second
into a status tree holding the first is suppressed by the duplicate guard. -/
theorem c3_counterexample_equal_values :
    touchSegments.getD 0 dummySegment ≠ touchSegments.getD 1 dummySegment ∧
    segEqValue (segVal touchSegments 0) (segVal touchSegments 1) = true ∧
    segLt touchSegments 0 1 = false ∧ segLt touchSegments 1 0 = false ∧
    BTree.insert (segLt touchSegments) (BTree.insert (segLt touchSegments) BTree.nil 0) 1 =
      BTree.insert (segLt touchSegments) BTree.nil 0 := by decide

/-- C4 (counterexample): the pending `INTERSECTION` event of `strayCrossState`
is between segments 2 and 3 — by identity not the pair {0, 1} — but
`remove_duplicate(0, 1)` removes it anyway, because the matching uses
`Segment.__eq__` (ordering-value equality), not object identity. -/
theorem c4_counterexample_identity_pair :
    strayCrossEvent.segments = [2, 3] ∧
    (remove_duplicate strayCrossState 0 1).pq = [] := by decide

/-- C9 (counterexample): `permLinesB` is a permutation of `permLinesA`, but
`find_intersections` returns different outputs on them (the run on `permLinesA`
reports the crossing (4/3, 4/3) of segments 0 and 2, the run on `permLinesB`
reports nothing: whichever of the two value-tied segments is inserted second is
dropped by the duplicate guard, and input order decides which one). -/
theorem c9_counterexample_permutation :
    permLinesA.Perm permLinesB ∧
    find_intersections 200 permLinesA = some [((4/3 : ℚ), (4/3 : ℚ))] ∧
    find_intersections 200 permLinesB = some [] := by decide

/-- C10 (counterexample): the zero-length segment [(0,0),(0,0)] is not rejected
and no exception reaches the caller — there is no `DegenerateInputError`
anywhere in the code.  The sweep runs to completion (both endpoint events are
processed) and the ordinary result `[]` is returned. -/
theorem c10_counterexample_no_error :
    find_intersections 50 [(((0:ℚ), (0:ℚ)), ((0:ℚ), (0:ℚ)))] = some [] := by decide

/-- C3 (amended): the status-structure comparison is by current ordering value
only: segments with equal values compare equal (no identity tie-break, no
strict order either way), and inserting a segment is suppressed by the
duplicate guard whenever the tree search finds an element comparing equal. -/
theorem c3_amended_value_equality_order (segs : List Segment) (i j : Nat) (t : BTree Nat)
    (hval : segVal segs i = segVal segs j)
    (hfound : (BTree.find? (segLt segs) t j).isSome = true) :
    segLt segs i j = false ∧ segLt segs j i = false ∧
      segEqValue (segVal segs i) (segVal segs j) = true ∧
      BTree.insert (segLt segs) t j = t := by
  refine ⟨?_, ?_, ?_, ?_⟩
  · simp [segLt, segLtValue, hval]
  · simp [segLt, segLtValue, hval]
  · simp [segEqValue, hval]
  · cases t with
    | nil => simp [BTree.find?] at hfound
    | node l k r h => simp [BTree.insert, hfound]

/-- Witness for C3's amended theorem at the concrete value-tied pair. -/
theorem c3_amended_witness :
    segLt touchSegments 0 1 = false ∧ segLt touchSegments 1 0 = false ∧
      segEqValue (segVal touchSegments 0) (segVal touchSegments 1) = true ∧
      BTree.insert (segLt touchSegments)
          (BTree.insert (segLt touchSegments) BTree.nil 0) 1 =
        BTree.insert (segLt touchSegments) BTree.nil 0 :=
  c3_amended_value_equality_order touchSegments 0 1
    (BTree.insert (segLt touchSegments) BTree.nil 0) (by decide) (by decide)

/-- `calculate_value` mutates only the `value` field. -/
theorem calculate_value_first_point (s : Segment) (v : ℚ) :
    (calculate_value s v).first_point = s.first_point := by
  simp only [calculate_value]; split_ifs <;> rfl

/-- `calculate_value` mutates only the `value` field. -/
theorem calculate_value_second_point (s : Segment) (v : ℚ) :
    (calculate_value s v).second_point = s.second_point := by
  simp only [calculate_value]; split_ifs <;> rfl

/-- `Segment.__init__` unfolded into its two normalization cases. -/
theorem mkSegment_eq (px py : Point) :
    mkSegment px py =
      if px.1 ≤ py.1 then calculate_value ⟨px, py, 0⟩ px.1
      else calculate_value ⟨py, px, 0⟩ py.1 := by
  simp only [mkSegment, get_first_and_second_point]
  split_ifs <;> rfl

/-- The ordering value assigned at the segment's own left endpoint. -/
theorem calculate_value_at_left (p q : Point) (w : ℚ) :
    (calculate_value ⟨p, q, w⟩ p.1).value = if q.1 - p.1 = 0 then 0 else p.2 := by
  simp only [calculate_value]
  split_ifs with h
  · rfl
  · simp

/-- C5: the intersection test reports success (and then enqueues exactly one new
`INTERSECTION` event) if and only if the determinant is nonzero, both parameters
t and u lie in [0,1], and the crossing's x-coordinate strictly exceeds the sweep
position; in every other case — in particular for parallel or collinear
segments, where the determinant is zero — it reports `False` and leaves the
state unchanged. -/
theorem c5_intersection_test_iff (st : Sweep) (i j : Nat) (v : ℚ) :
    ((intersection st i j v).1 = true ↔ crossCond st i j v) ∧
      (intersection st i j v).2 =
        (if crossCond st i j v then crossEnqueued st i j else st) := by
  simp only [intersection, crossCond, crossEnqueued, detOf, tOf, uOf, xcOf, ycOf]
  set s1 := st.segs.getD i dummySegment with hs1
  set s2 := st.segs.getD j dummySegment with hs2
  set r := (s1.second_point.1 - s1.first_point.1) * (s2.second_point.2 - s2.first_point.2) -
    (s1.second_point.2 - s1.first_point.2) * (s2.second_point.1 - s2.first_point.1) with hrdef
  by_cases hr : r = 0
  · rw [if_pos hr, if_neg (fun h => h.1 hr)]
    exact ⟨by simp only [Bool.false_eq_true, false_iff]; exact fun h => h.1 hr, rfl⟩
  · rw [if_neg hr]
    set t := ((s2.first_point.1 - s1.first_point.1) * (s2.second_point.2 - s2.first_point.2) -
      (s2.first_point.2 - s1.first_point.2) * (s2.second_point.1 - s2.first_point.1)) / r
      with htdef
    set u := ((s2.first_point.1 - s1.first_point.1) * (s1.second_point.2 - s1.first_point.2) -
      (s2.first_point.2 - s1.first_point.2) * (s1.second_point.1 - s1.first_point.1)) / r
      with hudef
    by_cases hc : 0 ≤ t ∧ t ≤ 1 ∧ 0 ≤ u ∧ u ≤ 1
    · rw [if_pos hc]
      by_cases hx : s1.first_point.1 + t * (s1.second_point.1 - s1.first_point.1) > v
      · rw [if_pos hx, if_pos ⟨hr, hc.1, hc.2.1, hc.2.2.1, hc.2.2.2, hx⟩]
        exact ⟨by simp [hr, hc, hx], rfl⟩
      · rw [if_neg hx, if_neg (fun h => hx h.2.2.2.2.2)]
        exact ⟨by simp only [Bool.false_eq_true, false_iff]; exact fun h => hx h.2.2.2.2.2, rfl⟩
    · rw [if_neg hc, if_neg (fun h => hc ⟨h.2.1, h.2.2.1, h.2.2.2.1, h.2.2.2.2.1⟩)]
      refine ⟨?_, rfl⟩
      simp only [Bool.false_eq_true, false_iff]
      exact fun h => hc ⟨h.2.1, h.2.2.1, h.2.2.2.1, h.2.2.2.2.1⟩

/-- C7 (counterexample): the vertical segment [(0,1),(0,2)] gets ordering value
0 after construction (the `ZeroDivisionError` handler), not its y-coordinate 1
at the left endpoint. -/
theorem c7_counterexample_vertical :
    (mkSegment ((0:ℚ), (1:ℚ)) ((0:ℚ), (2:ℚ))).value = 0 ∧
      (mkSegment ((0:ℚ), (1:ℚ)) ((0:ℚ), (2:ℚ))).first_point.2 = 1 ∧
      (mkSegment ((0:ℚ), (1:ℚ)) ((0:ℚ), (2:ℚ))).value ≠
        (mkSegment ((0:ℚ), (1:ℚ)) ((0:ℚ), (2:ℚ))).first_point.2 := by decide

/-- C7 (amended): immediately after construction, a non-vertical segment's
ordering value equals its own y-coordinate at its normalized left endpoint; a
vertical segment (equal endpoint x-coordinates, including zero-length ones) gets
ordering value 0 from the `ZeroDivisionError` handler instead. -/
theorem c7_amended_ordering_value_init (px py : Point) :
    (px.1 ≠ py.1 → (mkSegment px py).value = (mkSegment px py).first_point.2) ∧
      (px.1 = py.1 → (mkSegment px py).value = 0) := by
  rw [mkSegment_eq]
  constructor
  · intro hne
    by_cases hle : px.1 ≤ py.1
    · rw [if_pos hle, calculate_value_at_left, calculate_value_first_point]
      rw [if_neg (fun h => hne (sub_eq_zero.mp h).symm)]
    · rw [if_neg hle, calculate_value_at_left, calculate_value_first_point]
      rw [if_neg (fun h => hne (sub_eq_zero.mp h))]
  · intro he
    by_cases hle : px.1 ≤ py.1
    · rw [if_pos hle, calculate_value_at_left, if_pos (by rw [he, sub_self])]
    · rw [if_neg hle, calculate_value_at_left, if_pos (by rw [he, sub_self])]

/-- Witness for C7's amended theorem: a non-vertical and a vertical segment. -/
theorem c7_amended_witness :
    (mkSegment ((0:ℚ), (1:ℚ)) ((2:ℚ), (5:ℚ))).value =
        (mkSegment ((0:ℚ), (1:ℚ)) ((2:ℚ), (5:ℚ))).first_point.2 ∧
      (mkSegment ((3:ℚ), (1:ℚ)) ((3:ℚ), (7:ℚ))).value = 0 :=
  ⟨(c7_amended_ordering_value_init ((0:ℚ), (1:ℚ)) ((2:ℚ), (5:ℚ))).1 (by decide),
   (c7_amended_ordering_value_init ((3:ℚ), (1:ℚ)) ((3:ℚ), (7:ℚ))).2 (by decide)⟩

/-! Helper lemmas: no handler but the `INTERSECTION` one touches `output`, and
that one performs a single set-insertion, so the output stays duplicate-free. -/

/-- Set-insertion into a duplicate-free output keeps it duplicate-free. -/
theorem addOutput_nodup (p : Point) (out : List Point) (h : out.Nodup) :
    (addOutput p out).Nodup := by
  unfold addOutput
  split_ifs with hm
  · exact h
  · rw [← List.concat_eq_append]
    exact h.concat hm

theorem recalculate_output (st : Sweep) (v : ℚ) : (recalculate st v).output = st.output := rfl

theorem swap_output (st : Sweep) (i j : Nat) : (swap st i j).output = st.output := rfl

theorem remove_duplicate_output (st : Sweep) (i j : Nat) :
    (remove_duplicate st i j).output = st.output := rfl

theorem intersection_output (st : Sweep) (i j : Nat) (v : ℚ) :
    (intersection st i j v).2.output = st.output := by
  simp only [intersection]
  split_ifs <;> rfl

theorem leftPointBody_output (v : ℚ) (st : Sweep) (s : Nat) :
    (leftPointBody v st s).output = st.output := by
  simp only [leftPointBody]
  set st1 : Sweep :=
    { recalculate st v with
      tree := BTree.insert (segLt (recalculate st v).segs) (recalculate st v).tree s } with hst1
  have h1 : st1.output = st.output := rfl
  set st2 := match treeLower (segLt st1.segs) st1.tree s with
    | some lower => (intersection st1 lower s v).2
    | none => st1 with hst2
  have h2 : st2.output = st.output := by
    rw [hst2]
    cases treeLower (segLt st1.segs) st1.tree s with
    | none => exact h1
    | some lo => rw [intersection_output]; exact h1
  set st3 := match treeHigher (segLt st2.segs) st2.tree s with
    | some higher => (intersection st2 higher s v).2
    | none => st2 with hst3
  have h3 : st3.output = st.output := by
    rw [hst3]
    cases treeHigher (segLt st2.segs) st2.tree s with
    | none => exact h2
    | some hi => rw [intersection_output]; exact h2
  cases treeLower (segLt st3.segs) st3.tree s with
  | none => exact h3
  | some lo =>
    cases treeHigher (segLt st3.segs) st3.tree s with
    | none => exact h3
    | some hi => rw [remove_duplicate_output]; exact h3

theorem rightPointBody_output (v : ℚ) (st : Sweep) (s : Nat) :
    (rightPointBody v st s).output = st.output := by
  simp only [rightPointBody]
  cases treeLower (segLt st.segs) st.tree s with
  | none => rfl
  | some lo =>
    cases treeHigher (segLt st.segs) st.tree s with
    | none => rfl
    | some hi => simp only [intersection_output]

theorem foldl_output_eq {β : Type} (f : Sweep → β → Sweep)
    (hf : ∀ st b, (f st b).output = st.output) :
    ∀ (l : List β) (st : Sweep), (l.foldl f st).output = st.output := by
  intro l
  induction l with
  | nil => intro st; rfl
  | cons b rest ih => intro st; rw [List.foldl_cons, ih, hf]

/-- The `INTERSECTION` handler's only effect on the output is one set-insertion
of the event's point. -/
theorem cross_point_output (st : Sweep) (e : Event) :
    (find_intersections_point_intersections st e).output =
      addOutput e.point st.output := by
  simp only [find_intersections_point_intersections]
  set st1 := swap st (e.segments.getD 0 0) (e.segments.getD 1 0) with hst1
  have h1 : st1.output = st.output := rfl
  set fi := e.segments.getD 0 0
  set se := e.segments.getD 1 0
  congr 1
  split_ifs with hv
  · set stA := match treeHigher (segLt st1.segs) st1.tree fi with
      | some higher_first =>
          remove_duplicate (intersection st1 higher_first fi e.value).2 higher_first se
      | none => st1 with hstA
    have hA : stA.output = st.output := by
      rw [hstA]
      cases treeHigher (segLt st1.segs) st1.tree fi with
      | none => exact h1
      | some hf => rw [remove_duplicate_output, intersection_output]; exact h1
    cases treeLower (segLt stA.segs) stA.tree se with
    | none => exact hA
    | some ls => rw [remove_duplicate_output, intersection_output]; exact hA
  · set stB := match treeHigher (segLt st1.segs) st1.tree se with
      | some higher_second =>
          remove_duplicate (intersection st1 higher_second se e.value).2 higher_second fi
      | none => st1 with hstB
    have hB : stB.output = st.output := by
      rw [hstB]
      cases treeHigher (segLt st1.segs) st1.tree se with
      | none => exact h1
      | some hs => rw [remove_duplicate_output, intersection_output]; exact h1
    cases treeLower (segLt stB.segs) stB.tree fi with
    | none => exact hB
    | some lf => rw [remove_duplicate_output, intersection_output]; exact hB

theorem processEvent_output_nodup (st : Sweep) (e : Event) (h : st.output.Nodup) :
    (processEvent st e).output.Nodup := by
  unfold processEvent
  cases e.type with
  | pointLeft =>
    unfold find_intersections_left_point
    rw [foldl_output_eq _ (leftPointBody_output e.value)]
    exact h
  | pointRight =>
    unfold find_intersections_right_point
    rw [foldl_output_eq _ (rightPointBody_output e.value)]
    exact h
  | cross =>
    rw [cross_point_output]
    exact addOutput_nodup _ _ h

theorem runLoop_output_nodup (fuel : Nat) :
    ∀ (st st2 : Sweep), st.output.Nodup → runLoop fuel st = some st2 →
      st2.output.Nodup := by
  induction fuel with
  | zero =>
    intro st st2 hn h
    unfold runLoop at h
    cases hpq : st.pq with
    | nil => rw [hpq] at h; cases h; exact hn
    | cons a rest => rw [hpq] at h; cases h
  | succ n ih =>
    intro st st2 hn h
    rw [runLoop] at h
    cases hp : heappop st.pq with
    | none => rw [hp] at h; cases h; exact hn
    | some ep =>
      rw [hp] at h
      dsimp only at h
      exact ih _ _ (processEvent_output_nodup { st with pq := ep.2 } ep.1 hn) h

theorem initState_output (segments : List Segment) : (initState segments).output = [] := by
  unfold initState
  rw [foldl_output_eq]
  intro st b; rfl

instance : IsTrans Point pointLe := by
  constructor
  intro a b c hab hbc
  unfold pointLe at *
  rcases hab with h1 | ⟨h1, h2⟩ <;> rcases hbc with h3 | ⟨h3, h4⟩
  · exact Or.inl (lt_trans h1 h3)
  · exact Or.inl (h3 ▸ h1)
  · exact Or.inl (h1 ▸ h3)
  · exact Or.inr ⟨h1.trans h3, le_trans h2 h4⟩

instance : IsTotal Point pointLe := by
  constructor
  intro a b
  unfold pointLe
  rcases lt_trichotomy a.1 b.1 with h | h | h
  · exact Or.inl (Or.inl h)
  · rcases le_total a.2 b.2 with h2 | h2
    · exact Or.inl (Or.inr ⟨h, h2⟩)
    · exact Or.inr (Or.inr ⟨h.symm, h2⟩)
  · exact Or.inr (Or.inl h)

/-- C8: whenever `find_intersections` returns a result, that result is sorted
ascending in the lexicographic x-then-y order and contains no duplicate points
(the output set is populated by set-insertion and sorted once at the end). -/
theorem c8_output_sorted_nodup (fuel : Nat) (lines : List (Point × Point)) (out : List Point)
    (h : find_intersections fuel lines = some out) :
    List.Sorted pointLe out ∧ out.Nodup := by
  unfold find_intersections at h
  rw [Option.map_eq_some'] at h
  obtain ⟨st, hrun, hout⟩ := h
  have hnd : st.output.Nodup :=
    runLoop_output_nodup fuel _ st (by rw [initState_output]; exact List.nodup_nil) hrun
  subst hout
  unfold sortedOutput
  exact ⟨List.sorted_insertionSort pointLe st.output,
    ((List.perm_insertionSort pointLe st.output).nodup_iff).mpr hnd⟩

/-- Witness for C8 on the concrete two-segment crossing input. -/
theorem c8_witness :
    List.Sorted pointLe [((1:ℚ), (1:ℚ))] ∧ ([((1:ℚ), (1:ℚ))] : List Point).Nodup :=
  c8_output_sorted_nodup 50
    [(((0:ℚ), (0:ℚ)), ((2:ℚ), (2:ℚ))), (((0:ℚ), (2:ℚ)), ((2:ℚ), (0:ℚ)))]
    [((1:ℚ), (1:ℚ))] (by decide)

/-! Helper lemmas for C4: the CPython heap primitives permute the underlying
list, so `remove_by_object_id` removes exactly one designated event (up to
reordering), and the `remove_duplicate` scan removes only value-matching
events. -/

theorem getD_eq_getElem' {α : Type} (l : List α) (i : Nat) (d : α) (h : i < l.length) :
    l.getD i d = l[i] := by
  simp [List.getD_eq_getElem?_getD, List.getElem?_eq_getElem h]

theorem set_getD_self {α : Type} (l : List α) (i : Nat) (d : α) (h : i < l.length) :
    l.set i (l.getD i d) = l := by
  rw [getD_eq_getElem' l i d h]
  apply List.ext_getElem?
  intro j
  by_cases hij : i = j
  · subst hij; rw [List.getElem?_set_self h, List.getElem?_eq_getElem h]
  · rw [List.getElem?_set_ne hij]

theorem cons_set_comm {α : Type} (a b : α) (m : List α) (k : Nat) (hk : k < m.length) :
    (a :: m.set k b).Perm (b :: m.set k a) := by
  rw [List.set_eq_take_append_cons_drop, if_pos hk, List.set_eq_take_append_cons_drop, if_pos hk]
  refine ((List.perm_middle).cons a).trans ?_
  refine List.Perm.trans ?_ ((List.perm_middle).symm.cons b)
  exact List.Perm.swap b a _

theorem perm_set_set_lt {α : Type} (l : List α) (i j : Nat) (hij : i < j) (hj : j < l.length)
    (a b : α) : ((l.set i a).set j b).Perm ((l.set i b).set j a) := by
  have hi : i < l.length := lt_trans hij hj
  have htl : (l.take i).length = i := by simp [Nat.le_of_lt hi]
  have hjt : (l.take i).length ≤ j := by omega
  obtain ⟨k, hk⟩ : ∃ k, j - (l.take i).length = k + 1 := ⟨j - i - 1, by omega⟩
  have hkd : k < (l.drop (i + 1)).length := by
    rw [List.length_drop]; omega
  rw [List.set_eq_take_append_cons_drop (n := i) (a := a), if_pos hi,
    List.set_eq_take_append_cons_drop (n := i) (a := b), if_pos hi,
    List.set_append_right _ _ hjt, List.set_append_right _ _ hjt, hk]
  exact List.Perm.append_left (l.take i) (cons_set_comm a b (l.drop (i + 1)) k hkd)

/-- Exchanging the values written at two distinct positions yields a
permutation of the exchange done the other way around. -/
theorem perm_set_set {α : Type} (l : List α) (i j : Nat) (hi : i < l.length)
    (hj : j < l.length) (hij : i ≠ j) (a b : α) :
    ((l.set i a).set j b).Perm ((l.set i b).set j a) := by
  rcases Nat.lt_or_ge i j with h | h
  · exact perm_set_set_lt l i j h hj a b
  · have hji : j < i := Nat.lt_of_le_of_ne h (Ne.symm hij)
    rw [List.set_comm a b l hij, List.set_comm b a l hij]
    exact perm_set_set_lt l j i hji hi b a

/-- The `_siftdown` loop keeps a hole at the returned position: writing any
element there produces a permutation of writing it at the original position. -/
theorem siftdownGo_hole (sp : Nat) (ni : Event) :
    ∀ (fuel : Nat) (heap : List Event) (pos : Nat), pos < heap.length →
      (siftdownGo sp ni heap pos fuel).2 < (siftdownGo sp ni heap pos fuel).1.length ∧
      (siftdownGo sp ni heap pos fuel).1.length = heap.length ∧
      ∀ x : Event, ((siftdownGo sp ni heap pos fuel).1.set (siftdownGo sp ni heap pos fuel).2 x).Perm
        (heap.set pos x) := by
  intro fuel
  induction fuel with
  | zero =>
    intro heap pos hpos
    exact ⟨hpos, rfl, fun x => List.Perm.refl _⟩
  | succ n ih =>
    intro heap pos hpos
    rw [siftdownGo]
    by_cases hsp : sp < pos
    · rw [if_pos hsp]
      by_cases hlt : evLt ni (heap.getD ((pos - 1) / 2) dummyEvent) = true
      · rw [if_pos hlt]
        have hpp : (pos - 1) / 2 < pos := by omega
        have hpp2 : (pos - 1) / 2 < (heap.set pos (heap.getD ((pos - 1) / 2) dummyEvent)).length := by
          rw [List.length_set]; omega
        obtain ⟨ha, hb, hc⟩ := ih (heap.set pos (heap.getD ((pos - 1) / 2) dummyEvent)) ((pos - 1) / 2) hpp2
        refine ⟨ha, by rw [hb, List.length_set], fun x => ?_⟩
        refine (hc x).trans ?_
        have hne : pos ≠ (pos - 1) / 2 := by omega
        refine (perm_set_set heap pos ((pos - 1) / 2) hpos (by omega) hne _ _).trans ?_
        have : (heap.set pos x).getD ((pos - 1) / 2) dummyEvent =
            heap.getD ((pos - 1) / 2) dummyEvent := by
          rw [getD_eq_getElem' _ _ _ (by rw [List.length_set]; omega),
            getD_eq_getElem' _ _ _ (by omega)]
          exact List.getElem_set_ne hne _
        rw [← this, set_getD_self _ _ _ (by rw [List.length_set]; omega)]
      · rw [if_neg hlt]
        exact ⟨hpos, rfl, fun x => List.Perm.refl _⟩
    · rw [if_neg hsp]
      exact ⟨hpos, rfl, fun x => List.Perm.refl _⟩

theorem siftdown_perm (heap : List Event) (sp pos : Nat) (h : pos < heap.length) :
    (siftdown heap sp pos).Perm heap := by
  obtain ⟨ha, hb, hc⟩ := siftdownGo_hole sp (heap.getD pos dummyEvent) heap.length heap pos h
  unfold siftdown
  exact (hc _).trans (by rw [set_getD_self _ _ _ h])

/-- The `_siftup` loop keeps a hole at the returned position, like `_siftdown`. -/
theorem siftupGo_hole (ep : Nat) :
    ∀ (fuel : Nat) (heap : List Event) (pos : Nat), pos < heap.length → ep ≤ heap.length →
      (siftupGo ep heap pos fuel).2 < (siftupGo ep heap pos fuel).1.length ∧
      (siftupGo ep heap pos fuel).1.length = heap.length ∧
      ∀ x : Event, ((siftupGo ep heap pos fuel).1.set (siftupGo ep heap pos fuel).2 x).Perm
        (heap.set pos x) := by
  intro fuel
  induction fuel with
  | zero =>
    intro heap pos hpos hep
    exact ⟨hpos, rfl, fun x => List.Perm.refl _⟩
  | succ n ih =>
    intro heap pos hpos hep
    rw [siftupGo]
    by_cases hcp : 2 * pos + 1 < ep
    · rw [if_pos hcp]
      set cp := if 2 * pos + 1 + 1 < ep ∧
          ¬ evLt (heap.getD (2 * pos + 1) dummyEvent) (heap.getD (2 * pos + 1 + 1) dummyEvent) = true
        then 2 * pos + 1 + 1 else 2 * pos + 1 with hcpdef
      have hcpbound : cp < ep := by
        rw [hcpdef]; split_ifs with hx
        · exact hx.1
        · exact hcp
      have hcplen : cp < heap.length := lt_of_lt_of_le hcpbound hep
      have hcpne : pos ≠ cp := by
        rw [hcpdef]; split_ifs <;> omega
      have hlen2 : cp < (heap.set pos (heap.getD cp dummyEvent)).length := by
        rw [List.length_set]; exact hcplen
      obtain ⟨ha, hb, hc⟩ := ih (heap.set pos (heap.getD cp dummyEvent)) cp hlen2
        (by rw [List.length_set]; exact hep)
      refine ⟨ha, by rw [hb, List.length_set], fun x => ?_⟩
      refine (hc x).trans ?_
      refine (perm_set_set heap pos cp hpos hcplen hcpne _ _).trans ?_
      have : (heap.set pos x).getD cp dummyEvent = heap.getD cp dummyEvent := by
        rw [getD_eq_getElem' _ _ _ (by rw [List.length_set]; exact hcplen),
          getD_eq_getElem' _ _ _ hcplen]
        exact List.getElem_set_ne hcpne _
      rw [← this, set_getD_self _ _ _ (by rw [List.length_set]; exact hcplen)]
    · rw [if_neg hcp]
      exact ⟨hpos, rfl, fun x => List.Perm.refl _⟩

theorem siftup_perm (heap : List Event) (pos : Nat) (h : pos < heap.length) :
    (siftup heap pos).Perm heap := by
  obtain ⟨ha, hb, hc⟩ := siftupGo_hole heap.length heap.length heap pos h (le_refl _)
  unfold siftup
  have h2 : (siftupGo heap.length heap pos heap.length).2 <
      ((siftupGo heap.length heap pos heap.length).1.set
        (siftupGo heap.length heap pos heap.length).2 (heap.getD pos dummyEvent)).length := by
    rw [List.length_set]; exact ha
  refine (siftdown_perm _ _ _ h2).trans ?_
  exact (hc _).trans (by rw [set_getD_self _ _ _ h])

theorem foldl_siftup_perm :
    ∀ (idxs : List Nat) (a : List Event), (∀ i ∈ idxs, i < a.length) →
      (idxs.foldl (fun a i => siftup a i) a).Perm a := by
  intro idxs
  induction idxs with
  | nil => intro a _; exact List.Perm.refl _
  | cons i rest ih =>
    intro a hbound
    rw [List.foldl_cons]
    have hi : i < a.length := hbound i (List.mem_cons_self ..)
    have hperm : (siftup a i).Perm a := siftup_perm a i hi
    refine (ih (siftup a i) (fun k hk => ?_)).trans hperm
    rw [hperm.length_eq]
    exact hbound k (List.mem_cons_of_mem _ hk)

/-- `heapify` permutes the pending events; it never adds or drops one. -/
theorem heapify_perm (heap : List Event) : (heapify heap).Perm heap := by
  unfold heapify
  apply foldl_siftup_perm
  intro i hi
  rw [List.mem_reverse, List.mem_range] at hi
  omega

theorem nodup_eid_getElem_inj (l : List Event)
    (hn : (l.map (fun e => e.eid)).Nodup) (i j : Nat) (hi : i < l.length) (hj : j < l.length)
    (h : l[i].eid = l[j].eid) : i = j := by
  have hlen : i < (l.map (fun e => e.eid)).length := by simpa using hi
  have hlen2 : j < (l.map (fun e => e.eid)).length := by simpa using hj
  have hmap : (l.map (fun e => e.eid))[i] = (l.map (fun e => e.eid))[j] := by
    rw [List.getElem_map, List.getElem_map]
    exact h
  exact (List.Nodup.getElem_inj_iff hn).mp hmap

/-- Under unique event ids, `remove_by_object_id` removes exactly the designated
event: putting it back in front restores a permutation of the original queue. -/
theorem remove_by_object_id_perm (heap : List Event) (data : Event)
    (hn : (heap.map (fun e => e.eid)).Nodup) (idx : Nat) (hidx : idx < heap.length)
    (hdata : heap[idx] = data) :
    (data :: remove_by_object_id heap data).Perm heap := by
  have hpred : (fun e => e.eid == data.eid) heap[idx] = true := by
    rw [hdata]; exact beq_self_eq_true _
  have hi := List.findIdx?_eq_some_of_exists (p := fun e => e.eid == data.eid)
    ⟨heap[idx], heap.getElem_mem hidx, hpred⟩
  set i := heap.findIdx (fun e => e.eid == data.eid) with hidef
  obtain ⟨hilen, hip, _⟩ := List.findIdx?_eq_some_iff_getElem.mp hi
  have hieq : i = idx := by
    apply nodup_eid_getElem_inj heap hn i idx hilen hidx
    rw [hdata] at *
    exact (beq_iff_eq ..).mp hip
  subst hieq
  unfold remove_by_object_id
  rw [hi]
  refine List.Perm.trans (List.Perm.cons data ((heapify_perm _).trans (heapify_perm _))) ?_
  have hdecomp : heap = heap.take i ++ heap[i] :: heap.drop (i + 1) := by
    conv_lhs => rw [← set_getD_self heap i dummyEvent hilen]
    rw [getD_eq_getElem' _ _ _ hilen, List.set_eq_take_append_cons_drop, if_pos hilen]
  rw [List.eraseIdx_eq_take_drop_succ, hdata.symm]
  conv_rhs => rw [hdecomp]
  exact List.perm_middle.symm

/-- The `remove_duplicate` scan only ever removes events whose segment pair
value-matches the given pair; all other events keep their multiplicity. -/
theorem removeDupGo_count (segs : List Segment) (a b : Nat) :
    ∀ (fuel : Nat) (pq : List Event) (idx : Nat), (pq.map (fun e => e.eid)).Nodup →
      (∀ x : Event, ¬ dupMatches segs a b x →
        (removeDupGo segs a b pq idx fuel).count x = pq.count x) ∧
      (∀ x : Event, (removeDupGo segs a b pq idx fuel).count x ≤ pq.count x) := by
  intro fuel
  induction fuel with
  | zero =>
    intro pq idx hn
    rw [removeDupGo]
    exact ⟨fun _ _ => rfl, fun _ => le_refl _⟩
  | succ n ih =>
    intro pq idx hn
    rw [removeDupGo]
    by_cases hlt : idx < pq.length
    · rw [if_pos hlt]
      by_cases hm : dupMatches segs a b (pq.getD idx dummyEvent)
      · rw [if_pos hm]
        set e := pq.getD idx dummyEvent with he
        have hdata : pq[idx] = e := (getD_eq_getElem' pq idx dummyEvent hlt).symm
        have hperm : (e :: remove_by_object_id pq e).Perm pq :=
          remove_by_object_id_perm pq e hn idx hlt hdata
        have hn2 : ((remove_by_object_id pq e).map (fun ev => ev.eid)).Nodup := by
          have hmapperm : ((e :: remove_by_object_id pq e).map (fun ev => ev.eid)).Perm
              (pq.map (fun ev => ev.eid)) := hperm.map _
          have := (hmapperm.nodup_iff).mpr hn
          rw [List.map_cons] at this
          exact (List.nodup_cons.mp this).2
        obtain ⟨iheq, ihle⟩ := ih (remove_by_object_id pq e) (idx + 1) hn2
        have hcount : ∀ x : Event, pq.count x =
            (remove_by_object_id pq e).count x + (if e == x then 1 else 0) := by
          intro x
          rw [← hperm.count_eq, List.count_cons]
        constructor
        · intro x hx
          have hxe : (e == x) = false := by
            rw [beq_eq_false_iff_ne]
            intro hxeq
            exact hx (hxeq ▸ hm)
          rw [iheq x hx, hcount x, hxe]
          simp
        · intro x
          have := ihle x
          have h2 := hcount x
          omega
      · rw [if_neg hm]
        exact ih pq (idx + 1) hn
    · rw [if_neg hlt]
      exact ⟨fun _ _ => rfl, fun _ => le_refl _⟩

/-- C4 (amended): against any queue with unique event ids (as every reachable
queue has — ids model Python object identity), `remove_duplicate(first, second)`
matches pending `INTERSECTION` events by `Segment.__eq__` — *ordering-value*
equality — of the stored pair against `{first, second}` in either order, and
removes only such events (deleting each from the heap by event identity);
every event that does not value-match the pair keeps its exact multiplicity,
though the heap may be reordered. -/
theorem c4_amended_value_match_removal (st : Sweep) (i j : Nat)
    (hids : (st.pq.map (fun e => e.eid)).Nodup) :
    (∀ x : Event, ¬ dupMatches st.segs i j x →
        (remove_duplicate st i j).pq.count x = st.pq.count x) ∧
      ∀ x : Event, (remove_duplicate st i j).pq.count x ≤ st.pq.count x :=
  removeDupGo_count st.segs i j st.pq.length st.pq 0 hids

/-- Witness for C4's amended theorem: the non-matching `dummyEvent` keeps its
multiplicity in the concrete stray-event queue. -/
theorem c4_amended_witness :
    (remove_duplicate strayCrossState 0 1).pq.count dummyEvent =
      strayCrossState.pq.count dummyEvent :=
  (c4_amended_value_match_removal strayCrossState 0 1 (by decide)).1 dummyEvent (by decide)

/-- C9 (amended): determinism — running `find_intersections` on the identical
input list yields identical output (the algorithm reads nothing but its input);
order-independence fails, see the counterexample. -/
theorem c9_amended_determinism (fuel : Nat) (l1 l2 : List (Point × Point))
    (h : l1 = l2) : find_intersections fuel l1 = find_intersections fuel l2 :=
  congrArg (find_intersections fuel) h

/-- Witness for C9's amended theorem on a concrete repeated run. -/
theorem c9_amended_witness :
    find_intersections 200 permLinesA = find_intersections 200 permLinesA :=
  c9_amended_determinism 200 permLinesA permLinesA rfl

/-- C10 (amended): a degenerate (vertical or zero-length) segment is not
rejected: `calculate_value` absorbs the `ZeroDivisionError` by storing ordering
value 0, no `DegenerateInputError` exists, and the sweep on the zero-length
input [(0,0),(0,0)] runs to completion returning the ordinary result []. -/
theorem c10_amended_degenerate_absorbed (s : Segment) (v : ℚ)
    (h : s.second_point.1 - s.first_point.1 = 0) :
    (calculate_value s v).value = 0 ∧
      find_intersections 50 [(((0:ℚ), (0:ℚ)), ((0:ℚ), (0:ℚ)))] = some [] := by
  constructor
  · simp [calculate_value, h]
  · decide

/-- Witness for C10's amended theorem at the zero-length segment. -/
theorem c10_amended_witness :
    (calculate_value dummySegment 5).value = 0 ∧
      find_intersections 50 [(((0:ℚ), (0:ℚ)), ((0:ℚ), (0:ℚ)))] = some [] :=
  c10_amended_degenerate_absorbed dummySegment 5 (by decide)

/-! Helper lemmas for C6: the AVL shape invariant. -/

namespace BTree

variable {α : Type}

theorem childH_ge (t : BTree α) : -1 ≤ childH t := by
  cases t <;> simp [childH] <;> omega

theorem one_add_max_nonneg (l r : BTree α) : 0 ≤ 1 + max (childH l) (childH r) := by
  have h1 := childH_ge l
  have h2 := childH_ge r
  rcases le_total (childH l) (childH r) with h | h
  · rw [max_eq_right h]; omega
  · rw [max_eq_left h]; omega

theorem childH_mkNode (l : BTree α) (k : α) (r : BTree α) :
    childH (mkNode l k r) = 1 + max (childH l) (childH r) := by
  simp only [mkNode, childH]
  exact Int.toNat_of_nonneg (one_add_max_nonneg l r)

theorem balanceOf_mkNode (l : BTree α) (k : α) (r : BTree α) :
    balanceOf (mkNode l k r) = childH l - childH r := by
  simp only [mkNode, balanceOf]

theorem WF_mkNode {l r : BTree α} (k : α) (hl : WF l) (hr : WF r)
    (h1 : childH l - childH r ≤ 1) (h2 : childH r - childH l ≤ 1) :
    WF (mkNode l k r) := by
  simp only [mkNode, WF]
  exact ⟨hl, hr, Int.toNat_of_nonneg (one_add_max_nonneg l r), h1, h2⟩

theorem WF_leaf (k : α) : WF (node nil k nil 0) := by
  simp [WF, childH]

theorem childH_node (l : BTree α) (k : α) (r : BTree α) (h : Nat) :
    childH (node l k r h) = (h : Int) := rfl

theorem balanceOf_node (l : BTree α) (k : α) (r : BTree α) (h : Nat) :
    balanceOf (node l k r h) = childH l - childH r := rfl

theorem childH_nil : childH (nil : BTree α) = -1 := rfl

theorem rebalanceNode_eq_of_balanced (l r : BTree α) (k : α)
    (h1 : childH l - childH r ≤ 1) (h2 : childH r - childH l ≤ 1) :
    rebalanceNode (mkNode l k r) = mkNode l k r := by
  unfold rebalanceNode
  rw [balanceOf_mkNode, if_neg (by omega)]

theorem rebalanceNode_eq_rrc (l rl rr : BTree α) (k rk : α) (rh H : Nat)
    (hbal : childH l - (rh : Int) = -2) (hbr : childH rl - childH rr ≤ 0) :
    rebalanceNode (node l k (node rl rk rr rh) H) = mkNode (mkNode l k rl) rk rr := by
  have h1 : balanceOf (node l k (node rl rk rr rh) H) = -2 := by
    simp only [balanceOf_node, childH_node]; exact hbal
  unfold rebalanceNode
  rw [if_pos (Or.inl (by rw [h1]))]
  unfold rebalance
  rw [if_pos h1]
  show (if balanceOf (node rl rk rr rh) ≤ 0 then
      rebalance_case_rrc (node l k (node rl rk rr rh) H)
    else rebalance_case_rlc (node l k (node rl rk rr rh) H)) = _
  rw [if_pos (by simp only [balanceOf_node]; exact hbr)]
  rfl

theorem rebalanceNode_eq_rlc (l rla rlb rr : BTree α) (k rk rlk : α) (rlh rh H : Nat)
    (hbal : childH l - (rh : Int) = -2) (hbr : 0 < (rlh : Int) - childH rr) :
    rebalanceNode (node l k (node (node rla rlk rlb rlh) rk rr rh) H) =
      mkNode (mkNode l k rla) rlk (mkNode rlb rk rr) := by
  have h1 : balanceOf (node l k (node (node rla rlk rlb rlh) rk rr rh) H) = -2 := by
    simp only [balanceOf_node, childH_node]; exact hbal
  unfold rebalanceNode
  rw [if_pos (Or.inl (by rw [h1]))]
  unfold rebalance
  rw [if_pos h1]
  show (if balanceOf (node (node rla rlk rlb rlh) rk rr rh) ≤ 0 then
      rebalance_case_rrc (node l k (node (node rla rlk rlb rlh) rk rr rh) H)
    else rebalance_case_rlc (node l k (node (node rla rlk rlb rlh) rk rr rh) H)) = _
  rw [if_neg (by simp only [balanceOf_node, childH_node]; omega)]
  rfl

theorem rebalanceNode_eq_llc (la lb r : BTree α) (k lk : α) (lh H : Nat)
    (hbal : (lh : Int) - childH r = 2) (hbl : 0 ≤ childH la - childH lb) :
    rebalanceNode (node (node la lk lb lh) k r H) = mkNode la lk (mkNode lb k r) := by
  have h1 : balanceOf (node (node la lk lb lh) k r H) = 2 := by
    simp only [balanceOf_node, childH_node]; exact hbal
  unfold rebalanceNode
  rw [if_pos (Or.inr (by rw [h1]))]
  unfold rebalance
  rw [if_neg (by rw [h1]; omega)]
  show (if 0 ≤ balanceOf (node la lk lb lh) then
      rabalance_case_llc (node (node la lk lb lh) k r H)
    else rabalance_case_lrc (node (node la lk lb lh) k r H)) = _
  rw [if_pos (by simp only [balanceOf_node]; exact hbl)]
  rfl

theorem rebalanceNode_eq_lrc (la lba lbb r : BTree α) (k lk lbk : α) (lbh lh H : Nat)
    (hbal : (lh : Int) - childH r = 2) (hbl : childH la - (lbh : Int) < 0) :
    rebalanceNode (node (node la lk (node lba lbk lbb lbh) lh) k r H) =
      mkNode (mkNode la lk lba) lbk (mkNode lbb k r) := by
  have h1 : balanceOf (node (node la lk (node lba lbk lbb lbh) lh) k r H) = 2 := by
    simp only [balanceOf_node, childH_node]; exact hbal
  unfold rebalanceNode
  rw [if_pos (Or.inr (by rw [h1]))]
  unfold rebalance
  rw [if_neg (by rw [h1]; omega)]
  show (if 0 ≤ balanceOf (node la lk (node lba lbk lbb lbh) lh) then
      rabalance_case_llc (node (node la lk (node lba lbk lbb lbh) lh) k r H)
    else rabalance_case_lrc (node (node la lk (node lba lbk lbb lbh) lh) k r H)) = _
  rw [if_neg (by simp only [balanceOf_node, childH_node]; omega)]
  rfl

theorem rebalanceNode_mk (l r : BTree α) (k : α) (hl : WF l) (hr : WF r)
    (hd1 : childH l - childH r ≤ 2) (hd2 : childH r - childH l ≤ 2) :
    WF (rebalanceNode (mkNode l k r)) ∧
      childH (rebalanceNode (mkNode l k r)) ≤ 1 + max (childH l) (childH r) ∧
      max (childH l) (childH r) ≤ childH (rebalanceNode (mkNode l k r)) ∧
      (childH l - childH r ≤ 1 → childH r - childH l ≤ 1 →
        rebalanceNode (mkNode l k r) = mkNode l k r) := by
  by_cases hb : childH l - childH r ≤ 1 ∧ childH r - childH l ≤ 1
  · rw [rebalanceNode_eq_of_balanced l r k hb.1 hb.2]
    have hM := max_choice (childH l) (childH r)
    have hM1 := le_max_left (childH l) (childH r)
    have hM2 := le_max_right (childH l) (childH r)
    refine ⟨WF_mkNode k hl hr hb.1 hb.2, ?_, ?_, fun _ _ => rfl⟩
    · rw [childH_mkNode]
    · rw [childH_mkNode]; omega
  · have hcase : childH r - childH l = 2 ∨ childH l - childH r = 2 := by omega
    rcases hcase with hA | hB
    · -- right-heavy
      cases r with
      | nil =>
        exfalso
        have := childH_ge l
        simp only [childH_nil] at hA
        omega
      | node rl rk rr rh =>
        obtain ⟨hwrl, hwrr, hrh, hbr1, hbr2⟩ := hr
        simp only [childH_node] at hA hd1 hd2 ⊢
        have hgrl := childH_ge rl
        have hgrr := childH_ge rr
        have hgl := childH_ge l
        have hMr := max_choice (childH rl) (childH rr)
        have hMr1 := le_max_left (childH rl) (childH rr)
        have hMr2 := le_max_right (childH rl) (childH rr)
        by_cases hbr : childH rl - childH rr ≤ 0
        · -- single left rotation (rrc)
          have heq : rebalanceNode (mkNode l k (node rl rk rr rh)) =
              mkNode (mkNode l k rl) rk rr :=
            rebalanceNode_eq_rrc l rl rr k rk rh _ (by omega) (by omega)
          rw [heq]
          have hMa := max_choice (childH l) (childH rl)
          have hMa1 := le_max_left (childH l) (childH rl)
          have hMa2 := le_max_right (childH l) (childH rl)
          have hMb := max_choice (1 + max (childH l) (childH rl)) (childH rr)
          have hMb1 := le_max_left (1 + max (childH l) (childH rl)) (childH rr)
          have hMb2 := le_max_right (1 + max (childH l) (childH rl)) (childH rr)
          have hMc := max_choice (childH l) ((rh : Int))
          have hMc1 := le_max_left (childH l) ((rh : Int))
          have hMc2 := le_max_right (childH l) ((rh : Int))
          refine ⟨WF_mkNode rk (WF_mkNode k hl hwrl (by omega) (by omega)) hwrr
              (by rw [childH_mkNode]; omega) (by rw [childH_mkNode]; omega),
            ?_, ?_, ?_⟩
          · rw [childH_mkNode, childH_mkNode]; omega
          · rw [childH_mkNode, childH_mkNode]; omega
          · intro h1 h2; omega
        · -- double rotation (rlc): rl must be a node
          cases rl with
          | nil =>
            exfalso
            simp only [childH_nil] at hbr
            omega
          | node rla rlk rlb rlh =>
            obtain ⟨hwrla, hwrlb, hrlh, hbrl1, hbrl2⟩ := hwrl
            simp only [childH_node] at hbr hbr1 hbr2 hMr hMr1 hMr2 hrh
            have hgrla := childH_ge rla
            have hgrlb := childH_ge rlb
            have hMrl := max_choice (childH rla) (childH rlb)
            have hMrl1 := le_max_left (childH rla) (childH rlb)
            have hMrl2 := le_max_right (childH rla) (childH rlb)
            have heq : rebalanceNode (mkNode l k (node (node rla rlk rlb rlh) rk rr rh)) =
                mkNode (mkNode l k rla) rlk (mkNode rlb rk rr) :=
              rebalanceNode_eq_rlc l rla rlb rr k rk rlk rlh rh _ (by omega) (by omega)
            rw [heq]
            have hMa := max_choice (childH l) (childH rla)
            have hMa1 := le_max_left (childH l) (childH rla)
            have hMa2 := le_max_right (childH l) (childH rla)
            have hMb := max_choice (childH rlb) (childH rr)
            have hMb1 := le_max_left (childH rlb) (childH rr)
            have hMb2 := le_max_right (childH rlb) (childH rr)
            have hMc := max_choice (1 + max (childH l) (childH rla)) (1 + max (childH rlb) (childH rr))
            have hMc1 := le_max_left (1 + max (childH l) (childH rla)) (1 + max (childH rlb) (childH rr))
            have hMc2 := le_max_right (1 + max (childH l) (childH rla)) (1 + max (childH rlb) (childH rr))
            have hMd := max_choice (childH l) ((rh : Int))
            have hMd1 := le_max_left (childH l) ((rh : Int))
            have hMd2 := le_max_right (childH l) ((rh : Int))
            refine ⟨WF_mkNode rlk (WF_mkNode k hl hwrla (by omega) (by omega))
                (WF_mkNode rk hwrlb hwrr (by omega) (by omega))
                (by rw [childH_mkNode, childH_mkNode]; omega)
                (by rw [childH_mkNode, childH_mkNode]; omega),
              ?_, ?_, ?_⟩
            · rw [childH_mkNode, childH_mkNode, childH_mkNode]; omega
            · rw [childH_mkNode, childH_mkNode, childH_mkNode]; omega
            · intro h1 h2; omega
    · -- left-heavy (mirror)
      cases l with
      | nil =>
        exfalso
        have := childH_ge r
        simp only [childH_nil] at hB
        omega
      | node la lk lb lh =>
        obtain ⟨hwla, hwlb, hlh, hbl1, hbl2⟩ := hl
        simp only [childH_node] at hB hd1 hd2 ⊢
        have hgla := childH_ge la
        have hglb := childH_ge lb
        have hgr := childH_ge r
        have hMl := max_choice (childH la) (childH lb)
        have hMl1 := le_max_left (childH la) (childH lb)
        have hMl2 := le_max_right (childH la) (childH lb)
        by_cases hbl : 0 ≤ childH la - childH lb
        · -- single right rotation (llc)
          have heq : rebalanceNode (mkNode (node la lk lb lh) k r) =
              mkNode la lk (mkNode lb k r) :=
            rebalanceNode_eq_llc la lb r k lk lh _ (by omega) (by omega)
          rw [heq]
          have hMa := max_choice (childH lb) (childH r)
          have hMa1 := le_max_left (childH lb) (childH r)
          have hMa2 := le_max_right (childH lb) (childH r)
          have hMb := max_choice (childH la) (1 + max (childH lb) (childH r))
          have hMb1 := le_max_left (childH la) (1 + max (childH lb) (childH r))
          have hMb2 := le_max_right (childH la) (1 + max (childH lb) (childH r))
          have hMc := max_choice ((lh : Int)) (childH r)
          have hMc1 := le_max_left ((lh : Int)) (childH r)
          have hMc2 := le_max_right ((lh : Int)) (childH r)
          refine ⟨WF_mkNode lk hwla (WF_mkNode k hwlb hr (by omega) (by omega))
              (by rw [childH_mkNode]; omega) (by rw [childH_mkNode]; omega),
            ?_, ?_, ?_⟩
          · rw [childH_mkNode, childH_mkNode]; omega
          · rw [childH_mkNode, childH_mkNode]; omega
          · intro h1 h2; omega
        · -- double rotation (lrc): lb must be a node
          cases lb with
          | nil =>
            exfalso
            simp only [childH_nil] at hbl
            omega
          | node lba lbk lbb lbh =>
            obtain ⟨hwlba, hwlbb, hlbh, hblb1, hblb2⟩ := hwlb
            simp only [childH_node] at hbl hbl1 hbl2 hMl hMl1 hMl2 hlh
            have hglba := childH_ge lba
            have hglbb := childH_ge lbb
            have hMlb := max_choice (childH lba) (childH lbb)
            have hMlb1 := le_max_left (childH lba) (childH lbb)
            have hMlb2 := le_max_right (childH lba) (childH lbb)
            have heq : rebalanceNode (mkNode (node la lk (node lba lbk lbb lbh) lh) k r) =
                mkNode (mkNode la lk lba) lbk (mkNode lbb k r) :=
              rebalanceNode_eq_lrc la lba lbb r k lk lbk lbh lh _ (by omega) (by omega)
            rw [heq]
            have hMa := max_choice (childH la) (childH lba)
            have hMa1 := le_max_left (childH la) (childH lba)
            have hMa2 := le_max_right (childH la) (childH lba)
            have hMb := max_choice (childH lbb) (childH r)
            have hMb1 := le_max_left (childH lbb) (childH r)
            have hMb2 := le_max_right (childH lbb) (childH r)
            have hMc := max_choice (1 + max (childH la) (childH lba)) (1 + max (childH lbb) (childH r))
            have hMc1 := le_max_left (1 + max (childH la) (childH lba)) (1 + max (childH lbb) (childH r))
            have hMc2 := le_max_right (1 + max (childH la) (childH lba)) (1 + max (childH lbb) (childH r))
            have hMd := max_choice ((lh : Int)) (childH r)
            have hMd1 := le_max_left ((lh : Int)) (childH r)
            have hMd2 := le_max_right ((lh : Int)) (childH r)
            refine ⟨WF_mkNode lbk (WF_mkNode lk hwla hwlba (by omega) (by omega))
                (WF_mkNode k hwlbb hr (by omega) (by omega))
                (by rw [childH_mkNode, childH_mkNode]; omega)
                (by rw [childH_mkNode, childH_mkNode]; omega),
              ?_, ?_, ?_⟩
            · rw [childH_mkNode, childH_mkNode, childH_mkNode]; omega
            · rw [childH_mkNode, childH_mkNode, childH_mkNode]; omega
            · intro h1 h2; omega

theorem insert_child_wf (lt : α → α → Bool) (key : α) :
    ∀ t : BTree α, WF t → WF (insert_child lt t key) ∧
      (childH (insert_child lt t key) = childH t ∨
       childH (insert_child lt t key) = childH t + 1) := by
  intro t
  induction t with
  | nil =>
    intro _
    refine ⟨WF_leaf key, Or.inr ?_⟩
    simp [insert_child, childH_node, childH_nil]
  | node l k r h ihl ihr =>
    intro hwf
    obtain ⟨hwl, hwr, hh, hb1, hb2⟩ := hwf
    rw [insert_child]
    have hgl := childH_ge l
    have hgr := childH_ge r
    by_cases hlt : lt key k = true
    · rw [if_pos hlt]
      obtain ⟨hw2, hh2⟩ := ihl hwl
      obtain ⟨hwfres, hub, hlb, heq⟩ :=
        rebalanceNode_mk (insert_child lt l key) r k hw2 hwr (by omega) (by omega)
      refine ⟨hwfres, ?_⟩
      simp only [childH_node]
      have hM1 := max_choice (childH (insert_child lt l key)) (childH r)
      have hM1a := le_max_left (childH (insert_child lt l key)) (childH r)
      have hM1b := le_max_right (childH (insert_child lt l key)) (childH r)
      have hM2 := max_choice (childH l) (childH r)
      have hM2a := le_max_left (childH l) (childH r)
      have hM2b := le_max_right (childH l) (childH r)
      by_cases hc1 : childH (insert_child lt l key) - childH r ≤ 1
      · by_cases hc2 : childH r - childH (insert_child lt l key) ≤ 1
        · rw [heq hc1 hc2, childH_mkNode]
          omega
        · omega
      · omega
    · rw [if_neg hlt]
      obtain ⟨hw2, hh2⟩ := ihr hwr
      obtain ⟨hwfres, hub, hlb, heq⟩ :=
        rebalanceNode_mk l (insert_child lt r key) k hwl hw2 (by omega) (by omega)
      refine ⟨hwfres, ?_⟩
      simp only [childH_node]
      have hM1 := max_choice (childH l) (childH (insert_child lt r key))
      have hM1a := le_max_left (childH l) (childH (insert_child lt r key))
      have hM1b := le_max_right (childH l) (childH (insert_child lt r key))
      have hM2 := max_choice (childH l) (childH r)
      have hM2a := le_max_left (childH l) (childH r)
      have hM2b := le_max_right (childH l) (childH r)
      by_cases hc1 : childH l - childH (insert_child lt r key) ≤ 1
      · by_cases hc2 : childH (insert_child lt r key) - childH l ≤ 1
        · rw [heq hc1 hc2, childH_mkNode]
          omega
        · omega
      · omega

theorem insert_node_eq (lt : α → α → Bool) (l : BTree α) (k : α) (r : BTree α)
    (hh : Nat) (key : α) :
    insert lt (node l k r hh) key =
      if (find? lt (node l k r hh) key).isSome then node l k r hh
      else insert_child lt (node l k r hh) key := rfl

theorem insert_wf (lt : α → α → Bool) (t : BTree α) (key : α) (h : WF t) :
    WF (insert lt t key) := by
  cases t with
  | nil => exact WF_leaf key
  | node l k r hh =>
    rw [insert_node_eq]
    by_cases hf : (find? lt (node l k r hh) key).isSome = true
    · rw [if_pos hf]; exact h
    · rw [if_neg hf]; exact (insert_child_wf lt key _ h).1

theorem removeSmallest_wf :
    ∀ t : BTree α, WF t → WF (removeSmallest t) ∧
      (childH (removeSmallest t) = childH t ∨ childH (removeSmallest t) = childH t - 1) := by
  intro t
  induction t with
  | nil => intro _; exact ⟨trivial, Or.inl rfl⟩
  | node l k r h ihl ihr =>
    intro hwf
    obtain ⟨hwl, hwr, hh, hb1, hb2⟩ := hwf
    have hgr := childH_ge r
    cases l with
    | nil =>
      rw [removeSmallest]
      refine ⟨hwr, Or.inr ?_⟩
      simp only [childH_node, childH_nil] at hh ⊢
      rw [max_eq_right hgr] at hh
      omega
    | node ll lk lr lh =>
      rw [removeSmallest]
      obtain ⟨hw2, hh2⟩ := ihl hwl
      simp only [childH_node] at hh hb1 hb2 hh2 ⊢
      obtain ⟨hwfres, hub, hlb, heq⟩ :=
        rebalanceNode_mk (removeSmallest (node ll lk lr lh)) r k hw2 hwr
          (by omega) (by omega)
      refine ⟨hwfres, ?_⟩
      have hM1 := max_choice (childH (removeSmallest (node ll lk lr lh))) (childH r)
      have hM1a := le_max_left (childH (removeSmallest (node ll lk lr lh))) (childH r)
      have hM1b := le_max_right (childH (removeSmallest (node ll lk lr lh))) (childH r)
      have hM2 := max_choice ((lh : Int)) (childH r)
      have hM2a := le_max_left ((lh : Int)) (childH r)
      have hM2b := le_max_right ((lh : Int)) (childH r)
      by_cases hc2 : childH r - childH (removeSmallest (node ll lk lr lh)) ≤ 1
      · rw [heq (by omega) hc2, childH_mkNode]
        omega
      · omega

theorem remove_key_wf (lt : α → α → Bool) (key : α) :
    ∀ t : BTree α, WF t → WF (remove_key lt t key) ∧
      (childH (remove_key lt t key) = childH t ∨
       childH (remove_key lt t key) = childH t - 1) := by
  intro t
  induction t with
  | nil => intro _; exact ⟨trivial, Or.inl rfl⟩
  | node l k r h ihl ihr =>
    intro hwf
    obtain ⟨hwl, hwr, hh, hb1, hb2⟩ := hwf
    have hgl := childH_ge l
    have hgr := childH_ge r
    rw [remove_key.eq_def]
    dsimp only
    by_cases h1 : lt key k = true
    · rw [if_pos h1]
      obtain ⟨hw2, hh2⟩ := ihl hwl
      obtain ⟨hwfres, hub, hlb, heq⟩ :=
        rebalanceNode_mk (remove_key lt l key) r k hw2 hwr (by omega) (by omega)
      refine ⟨hwfres, ?_⟩
      simp only [childH_node]
      have hM1 := max_choice (childH (remove_key lt l key)) (childH r)
      have hM1a := le_max_left (childH (remove_key lt l key)) (childH r)
      have hM1b := le_max_right (childH (remove_key lt l key)) (childH r)
      have hM2 := max_choice (childH l) (childH r)
      have hM2a := le_max_left (childH l) (childH r)
      have hM2b := le_max_right (childH l) (childH r)
      by_cases hc2 : childH r - childH (remove_key lt l key) ≤ 1
      · rw [heq (by omega) hc2, childH_mkNode]
        omega
      · omega
    · rw [if_neg h1]
      by_cases h2 : lt k key = true
      · rw [if_pos h2]
        obtain ⟨hw2, hh2⟩ := ihr hwr
        obtain ⟨hwfres, hub, hlb, heq⟩ :=
          rebalanceNode_mk l (remove_key lt r key) k hwl hw2 (by omega) (by omega)
        refine ⟨hwfres, ?_⟩
        simp only [childH_node]
        have hM1 := max_choice (childH l) (childH (remove_key lt r key))
        have hM1a := le_max_left (childH l) (childH (remove_key lt r key))
        have hM1b := le_max_right (childH l) (childH (remove_key lt r key))
        have hM2 := max_choice (childH l) (childH r)
        have hM2a := le_max_left (childH l) (childH r)
        have hM2b := le_max_right (childH l) (childH r)
        by_cases hc2 : childH l - childH (remove_key lt r key) ≤ 1
        · rw [heq hc2 (by omega), childH_mkNode]
          omega
        · omega
      · rw [if_neg h2]
        cases l with
        | nil =>
          cases r with
          | nil =>
            refine ⟨trivial, Or.inr ?_⟩
            simp only [childH_node, childH_nil] at hh ⊢
            rw [max_self] at hh
            omega
          | node rl rk rr rh =>
            refine ⟨hwr, Or.inr ?_⟩
            simp only [childH_node, childH_nil] at hh ⊢
            rw [max_eq_right (by omega : (-1 : Int) ≤ (rh : Int))] at hh
            omega
        | node la lk lb llh =>
          cases r with
          | nil =>
            dsimp only
            refine ⟨hwl, Or.inr ?_⟩
            simp only [childH_node, childH_nil] at hh ⊢
            rw [max_eq_left (by omega : (-1 : Int) ≤ (llh : Int))] at hh
            omega
          | node rl rk rr rh =>
            dsimp only
            cases hfs : find_smallest (node rl rk rr rh) with
            | none =>
              exact ⟨⟨hwl, hwr, hh, hb1, hb2⟩, Or.inl rfl⟩
            | some succ =>
              obtain ⟨hw2, hh2⟩ := removeSmallest_wf (node rl rk rr rh) hwr
              simp only [childH_node] at hh hb1 hb2 hh2 hgl hgr ⊢
              obtain ⟨hwfres, hub, hlb, heq⟩ :=
                rebalanceNode_mk (node la lk lb llh) (removeSmallest (node rl rk rr rh))
                  succ hwl hw2 (by simp only [childH_node]; omega)
                  (by simp only [childH_node]; omega)
              simp only [childH_node] at hub hlb heq
              refine ⟨hwfres, ?_⟩
              have hM1 := max_choice ((llh : Int)) (childH (removeSmallest (node rl rk rr rh)))
              have hM1a := le_max_left ((llh : Int)) (childH (removeSmallest (node rl rk rr rh)))
              have hM1b := le_max_right ((llh : Int)) (childH (removeSmallest (node rl rk rr rh)))
              have hM2 := max_choice ((llh : Int)) ((rh : Int))
              have hM2a := le_max_left ((llh : Int)) ((rh : Int))
              have hM2b := le_max_right ((llh : Int)) ((rh : Int))
              by_cases hc2 : (llh : Int) - childH (removeSmallest (node rl rk rr rh)) ≤ 1
              · rw [heq hc2 (by omega), childH_mkNode]
                simp only [childH_node]
                omega
              · omega

end BTree

theorem applyOp_wf {α : Type} (t : BTree α) (op : AVLOp α) (h : BTree.WF t) :
    BTree.WF (applyOp t op) := by
  cases op with
  | insOp lt k => exact BTree.insert_wf lt t k h
  | delOp lt k => exact (BTree.remove_key_wf lt k t h).1

/-- C6: after every structural mutation of the status-structure tree — any
sequence of `insert` and `remove_key` operations, each taken at whatever
comparison the mutable segment ordering values induce at that moment — every
node's recorded height equals 1 + the maximum of its children's heights (with
-1 for an absent child) and every balance factor lies in {-1, 0, 1}. -/
theorem c6_avl_invariant {α : Type} (ops : List (AVLOp α)) : BTree.WF (applyOps ops) := by
  suffices h : ∀ t : BTree α, BTree.WF t → BTree.WF (ops.foldl applyOp t) from
    h BTree.nil trivial
  induction ops with
  | nil => intro t ht; exact ht
  | cons op rest ih => intro t ht; exact ih (applyOp t op) (applyOp_wf t op ht)

end BO
